import Mathlib

/-!
Verification of the sample-allocation layer of the pyapprox multifidelity
Monte-Carlo estimators (`pyapprox/multifidelity/monte_carlo_estimators.py`).

Conventions of the shallow embedding:
* model costs, sample ratios, budgets and covariance entries are rationals
  (the Python code works with finite floats; the algebraic laws proved here
  are exact);
* a Python `raise` is an `Except.error` carrying the message of the raised
  exception; a function body that contains no reachable `raise` is embedded
  as a function that always returns `Except.ok`;
* IEEE positive infinity (`np.inf`, and the result of dividing a positive
  float by zero, which numpy produces with a warning instead of raising) is
  the element `⊤` of `WithTop ℚ`;
* mutable attribute state of an estimator object is an explicit record that
  the embedded methods take and return.
-/

/-- Dot product of two rational lists, truncating at the shorter one
(the numpy elementwise product followed by `sum`). -/
def dotq (a b : List ℚ) : ℚ := (List.zipWith (· * ·) a b).sum

/-- Nearest-integer rounding, halves up (models rounding a float to the
nearest integer). -/
def rnd (q : ℚ) : ℤ := ⌊q + 1/2⌋

/-- Truncation toward zero: the semantics of Python `int(...)` and of
numpy `.astype(int)` on a finite float. -/
def pyInt (q : ℚ) : ℤ := if 0 ≤ q then ⌊q⌋ else -⌊-q⌋

/-- Decidable equality for `Except`, used to evaluate embedded functions
at concrete inputs. -/
instance exceptDecidableEq {ε α : Type} [DecidableEq ε] [DecidableEq α] :
    DecidableEq (Except ε α)
  | .ok x, .ok y =>
    if h : x = y then .isTrue (by rw [h])
    else .isFalse (by intro hc; injection hc; exact h (by assumption))
  | .error e, .error f =>
    if h : e = f then .isTrue (by rw [h])
    else .isFalse (by intro hc; injection hc; exact h (by assumption))
  | .ok _, .error _ => .isFalse (by intro hc; injection hc)
  | .error _, .ok _ => .isFalse (by intro hc; injection hc)

/-- Modelled from the spec: `get_nhf_samples` lives in
`pyapprox/multifidelity/control_variate_monte_carlo.py`, which is absent
from the sources; the spec states the number of high-fidelity samples is
derived as `target_cost / (costs[0] + Σ ratios_i·costs_i)`, where the sum
runs over the low-fidelity models `i = 1..M-1`. -/
def get_nhf_samples (target_cost : ℚ) (costs nsample_ratios : List ℚ) : ℚ :=
  target_cost / (costs.headD 0 + dotq nsample_ratios costs.tail)

/-- Modelled from the spec: `get_nsamples_per_model` (absent module
`control_variate_monte_carlo.py`) returns the per-model sample counts
`[nhf, r_1·nhf, …, r_{M-1}·nhf]`; with the rounding flag set each entry is
rounded to the nearest integer. -/
def get_nsamples_per_model (target_cost : ℚ) (costs nsample_ratios : List ℚ)
    (round_flag : Bool) : List ℚ :=
  let nhf := get_nhf_samples target_cost costs nsample_ratios
  let ns := nhf :: nsample_ratios.map (· * nhf)
  if round_flag then ns.map (fun q => ((rnd q : ℤ) : ℚ)) else ns

/-- Modelled from the spec: `round_nsample_ratios` (absent module
`control_variate_monte_carlo.py`) fixes the integer high-fidelity count to
the floor of the continuous one, rounds each ratio to the nearest value
that keeps `nhf_samples × ratio_i` an integer, and recomputes the realized
target cost from the resulting integer counts. -/
def round_nsample_ratios (target_cost : ℚ) (costs nsample_ratios : List ℚ) :
    List ℚ × ℚ :=
  let nhf : ℤ := ⌊get_nhf_samples target_cost costs nsample_ratios⌋
  let nlf : List ℤ := nsample_ratios.map (fun r => rnd (r * nhf))
  let ratios := nlf.map (fun (n : ℤ) => (n : ℚ) / (nhf : ℚ))
  let rtc := costs.headD 0 * nhf +
    dotq (nlf.map (fun (n : ℤ) => (n : ℚ))) costs.tail
  (ratios, rtc)

/-- Embeds `AbstractACVEstimator._variance_reduction` (source line 218):
`1 - rsquared`. -/
def variance_reduction (rsquared : ℚ) : ℚ := 1 - rsquared

/-- Embeds `AbstractACVEstimator._get_variance` (source lines 257-261):
`variance = var_red * cov[0, 0] / nhf_samples` with
`var_red = 1 - rsquared` and `nhf_samples = get_nhf_samples(...)`.
The family-specific `_get_rsquared` hook is a parameter. -/
def acv_get_variance (cov00 : ℚ) (rsquared : List ℚ → ℚ)
    (target_cost : ℚ) (costs nsample_ratios : List ℚ) : ℚ :=
  variance_reduction (rsquared nsample_ratios) * cov00 /
    get_nhf_samples target_cost costs nsample_ratios

/-- Attribute state persisted by `MCEstimator.allocate_samples`. -/
structure MCState where
  nsamples_per_model : List ℤ
  rounded_target_cost : ℚ
  optimized_variance : WithTop ℚ
  deriving DecidableEq, Repr

/-- Embeds `MCEstimator.get_variance` (source lines 625-626):
`cov[0, 0] / nhf_samples`.  When `nhf_samples = 0` numpy divides the
positive float `cov[0, 0]` by zero, which emits a warning and produces
`inf` — it does not raise — so the result is `⊤` (the embedding assumes
`cov00 > 0`, the variance of the high-fidelity model). -/
def mc_get_variance (cov00 : ℚ) (nhf_samples : ℤ) : WithTop ℚ :=
  if nhf_samples = 0 then ⊤ else ((cov00 / (nhf_samples : ℚ) : ℚ) : WithTop ℚ)

/-- Embeds `MCEstimator.allocate_samples` (source lines 616-623).  The body
contains no `raise` and no operation that can raise on numpy inputs
(division by zero yields `inf` with a warning), so the embedding always
returns `Except.ok` with the returned triple and the persisted state. -/
def mc_allocate_samples (cov00 c0 target_cost : ℚ) :
    Except String ((List ℚ × WithTop ℚ × ℚ) × MCState) :=
  let nhf : ℤ := ⌊target_cost / c0⌋
  let nsample_ratios : List ℚ := []
  let variance := mc_get_variance cov00 nhf
  let rtc := c0 * nhf
  .ok ((nsample_ratios, variance, rtc), ⟨[nhf], rtc, variance⟩)

/-- Claim C5 (first conjunct helper): the concrete scenario of
`test_get_nhf_samples`. -/
example : get_nhf_samples 15 [1, 1/2, 1/4] [2, 4] = 5 := by
  norm_num [get_nhf_samples, dotq]

/-- C5: the number of high-fidelity samples is
`target_cost / (costs[0] + Σ ratios_i·costs_i)`; at `target_cost = 15`,
`costs = [1, 1/2, 1/4]`, `ratios = [2, 4]` it equals exactly `5`; and the
estimator variance is the variance reduction times `cov[0,0]` divided by
this number of high-fidelity samples. -/
theorem c5_nhf_samples_and_variance :
    get_nhf_samples 15 [1, 1/2, 1/4] [2, 4] = 5 ∧
    (∀ (cov00 target_cost : ℚ) (rsquared : List ℚ → ℚ)
        (costs nsample_ratios : List ℚ),
      acv_get_variance cov00 rsquared target_cost costs nsample_ratios =
        (1 - rsquared nsample_ratios) * cov00 /
          (target_cost / (costs.headD 0 + dotq nsample_ratios costs.tail))) := by
  constructor
  · norm_num [get_nhf_samples, dotq]
  · intro cov00 target_cost rsquared costs nsample_ratios
    rfl

/-- C3 counterexample: at `cov00 = 1`, `costs = [1]`, `target_cost = 1/2`
(too small for one high-fidelity sample) `MCEstimator.allocate_samples`
does not raise: it returns normally with zero high-fidelity samples,
infinite variance and rounded cost `0`. -/
theorem c3_mc_returns_instead_of_raising :
    mc_allocate_samples 1 1 (1/2) = .ok (([], ⊤, 0), ⟨[0], 0, ⊤⟩) := by
  have h : (⌊(1 : ℚ)/2 / 1⌋ : ℤ) = 0 := by norm_num
  simp [mc_allocate_samples, mc_get_variance, h]
  norm_num

/-- Modelled from the spec: `allocate_samples_acv` — the optimizer entry
called by `AbstractNumericalACVEstimator._allocate_samples` (source lines
711-715) — lives in the absent module `control_variate_monte_carlo.py`.
The constraint set assembled by `get_constraints` (source lines 717-723)
starts with `acv_sample_allocation_nhf_samples_constraint`, and the spec
says an infeasible budget — "target_cost too small to afford even one
high-fidelity sample (target_cost < costs[0])" — "fails with an
allocation error ... raised from the optimizer, surfaced to caller".
Only this feasibility gate is modelled; on a feasible budget the
continuous solution comes from the solver, a parameter. -/
def allocate_samples_acv (solver : ℚ → List ℚ × ℚ) (c0 target_cost : ℚ) :
    Except String (List ℚ × ℚ) :=
  if target_cost < c0 then .error "infeasible target cost"
  else .ok (solver target_cost)

/-- C3 (amended): for the estimator families that allocate through the
numerical optimizer, a target cost below the cost of one high-fidelity
sample makes the optimizer raise an allocation error that is surfaced to
the caller; `MCEstimator.allocate_samples`, however, does not raise: for
every positive high-fidelity cost and every
`0 ≤ target_cost < costs[0]` it returns a degenerate allocation — zero
high-fidelity samples, variance `+∞` and rounded target cost `0`. -/
theorem c3_infeasible_budget_behaviour (solver : ℚ → List ℚ × ℚ)
    (cov00 c0 target_cost : ℚ)
    (hc0 : 0 < c0) (ht0 : 0 ≤ target_cost) (ht : target_cost < c0) :
    allocate_samples_acv solver c0 target_cost =
      .error "infeasible target cost" ∧
    mc_allocate_samples cov00 c0 target_cost =
      .ok (([], ⊤, 0), ⟨[0], 0, ⊤⟩) := by
  constructor
  · simp [allocate_samples_acv, ht]
  · have hq0 : 0 ≤ target_cost / c0 := div_nonneg ht0 hc0.le
    have hq1 : target_cost / c0 < 1 := (div_lt_one hc0).mpr ht
    have hfl : (⌊target_cost / c0⌋ : ℤ) = 0 := by
      have h := Int.floor_eq_zero_iff.mpr ⟨hq0, hq1⟩
      simpa using h
    simp [mc_allocate_samples, mc_get_variance, hfl]

/-- C3 witness: instantiates the amended statement at
`cov00 = 1, costs = [1], target_cost = 1/2` with a trivial solver. -/
theorem c3_infeasible_budget_behaviour_witness :
    (0 : ℚ) < 1 ∧ (0 : ℚ) ≤ 1/2 ∧ (1/2 : ℚ) < 1 ∧
    (allocate_samples_acv (fun _ => ([], 0)) 1 (1/2) =
      .error "infeasible target cost" ∧
    mc_allocate_samples 1 1 (1/2) = .ok (([], ⊤, 0), ⟨[0], 0, ⊤⟩)) :=
  ⟨by norm_num, by norm_num, by norm_num,
    c3_infeasible_budget_behaviour (fun _ => ([], 0)) 1 1 (1/2)
      (by norm_num) (by norm_num) (by norm_num)⟩

/-- Supported sampling methods (source lines 87-98,
`AbstractMonteCarloEstimator.set_sampling_method`). -/
def sampling_methods : List String := ["random", "sobol", "halton"]

/-- Registered estimator family names (source lines 1537-1544,
the `monte_carlo_estimators` dictionary). -/
def estimator_names : List String :=
  ["acvmf", "acvis", "mfmc", "mlmc", "acvgmf", "acvgmfb", "mc", "mlblue"]

/-- Embeds `AbstractMonteCarloEstimator.__init__` (source lines 68-98):
first the covariance/cost dimension check (line 68 raises ValueError
"cov and costs are inconsistent"), then — via `set_random_state(None)` at
line 76 — the sampling-method check of `set_sampling_method` (line 95
raises ValueError "<method> not supported").  Only the shape of the
covariance matters for these checks, so the covariance is represented by
its dimension. -/
def amc_init (cov_dim ncosts : ℕ) (sampling_method : String) :
    Except String Unit :=
  if cov_dim ≠ ncosts then .error "cov and costs are inconsistent"
  else if sampling_method ∉ sampling_methods then
    .error (sampling_method ++ " not supported")
  else .ok ()

/-- Embeds `get_estimator` (source lines 1547-1556): unsupported names
raise ValueError before any constructor runs; a supported name dispatches
to the family constructor, each of which runs
`AbstractMonteCarloEstimator.__init__` first and then its family-specific
tail (the parameter `rest`). -/
def get_estimator (rest : String → Except String Unit)
    (estimator_type : String) (cov_dim ncosts : ℕ)
    (sampling_method : String) : Except String Unit :=
  if estimator_type ∉ estimator_names then
    .error ("Estimator " ++ estimator_type ++ " not supported")
  else
    match amc_init cov_dim ncosts sampling_method with
    | .error e => .error e
    | .ok _ => rest estimator_type

/-- C7: each of the three malformed construction inputs — a covariance
whose dimension disagrees with the cost vector's length, a sampling method
outside {random, sobol, halton}, and an estimator family name outside the
registered eight — is rejected with a raised ValueError at construction
time and no estimator is produced. -/
theorem c7_construction_validation (rest : String → Except String Unit)
    (estimator_type : String) (cov_dim ncosts : ℕ)
    (sampling_method : String) :
    (cov_dim ≠ ncosts →
      amc_init cov_dim ncosts sampling_method =
        .error "cov and costs are inconsistent") ∧
    (cov_dim = ncosts → sampling_method ∉ sampling_methods →
      amc_init cov_dim ncosts sampling_method =
        .error (sampling_method ++ " not supported")) ∧
    (estimator_type ∉ estimator_names →
      get_estimator rest estimator_type cov_dim ncosts sampling_method =
        .error ("Estimator " ++ estimator_type ++ " not supported")) ∧
    (∀ e₁, amc_init cov_dim ncosts sampling_method = .error e₁ →
      estimator_type ∈ estimator_names →
      get_estimator rest estimator_type cov_dim ncosts sampling_method =
        .error e₁) := by
  refine ⟨fun h => by simp [amc_init, h], fun h hm => by simp [amc_init, h, hm],
    fun h => by simp [get_estimator, h], fun e₁ he hmem => ?_⟩
  simp [get_estimator, hmem, he]

/-- C7 witness: a dimension mismatch (3 vs 2), an unsupported sampling
method ("latin"), and an unsupported family name ("cv") each raise at
construction. -/
theorem c7_construction_validation_witness :
    amc_init 3 2 "latin" = .error "cov and costs are inconsistent" ∧
    amc_init 2 2 "latin" = .error ("latin" ++ " not supported") ∧
    get_estimator (fun _ => .ok ()) "cv" 2 2 "random" =
      .error ("Estimator " ++ "cv" ++ " not supported") ∧
    get_estimator (fun _ => .ok ()) "mfmc" 3 2 "random" =
      .error "cov and costs are inconsistent" :=
  ⟨(c7_construction_validation (fun _ => .ok ()) "cv" 3 2 "latin").1
      (by decide),
   (c7_construction_validation (fun _ => .ok ()) "cv" 2 2 "latin").2.1 rfl
      (by decide),
   (c7_construction_validation (fun _ => .ok ()) "cv" 2 2 "random").2.2.1
      (by decide),
   (c7_construction_validation (fun _ => .ok ()) "mfmc" 3 2 "random").2.2.2
      "cov and costs are inconsistent" rfl (by decide)⟩

/-- Embeds `MFMCEstimator.__init__` (source lines 659-669): the base
constructor runs first, then `_check_model_costs_and_correlation` raises
ValueError "Model correlations and costs cannot be used with MFMC" when
the analytic acceptability check fails.  Modelled from the spec: the
check itself, `check_mfmc_model_costs_and_correlations`, lives in the
absent module `control_variate_monte_carlo.py`; the spec says only that it
analytically decides whether the correlation/cost combination can produce
variance reduction, so its Boolean verdict is a parameter here. -/
def mfmc_init (cov_dim ncosts : ℕ) (sampling_method : String)
    (models_acceptable : Bool) : Except String Unit :=
  match amc_init cov_dim ncosts sampling_method with
  | .error e => .error e
  | .ok _ =>
    if ¬ models_acceptable then
      .error "Model correlations and costs cannot be used with MFMC"
    else .ok ()

/-- C6: for well-formed base inputs, MFMC construction raises a ValueError
exactly when the analytic cost/correlation check reports that variance
reduction is impossible, and succeeds otherwise; the constructor takes no
target cost, so the check happens before and independently of any
`allocate_samples` call. -/
theorem c6_mfmc_construction_check (cov_dim ncosts : ℕ)
    (sampling_method : String) (models_acceptable : Bool)
    (hdim : cov_dim = ncosts) (hsm : sampling_method ∈ sampling_methods) :
    mfmc_init cov_dim ncosts sampling_method models_acceptable =
      (if models_acceptable then .ok ()
       else .error "Model correlations and costs cannot be used with MFMC") := by
  cases models_acceptable <;>
    simp [mfmc_init, amc_init, hdim, hsm]

/-- C6 witness: with matching dimensions and the "random" sampling method,
a failing check raises at construction and a passing check constructs. -/
theorem c6_mfmc_construction_check_witness :
    (2 : ℕ) = 2 ∧ "random" ∈ sampling_methods ∧
    mfmc_init 2 2 "random" false =
      .error "Model correlations and costs cannot be used with MFMC" ∧
    mfmc_init 2 2 "random" true = .ok () :=
  ⟨rfl, by simp [sampling_methods],
    c6_mfmc_construction_check 2 2 "random" false rfl
      (by simp [sampling_methods]),
    c6_mfmc_construction_check 2 2 "random" true rfl
      (by simp [sampling_methods])⟩

/-- Embeds the explore-sample update of `AETCBLUE._explore_step` (source
lines 1404-1409): double toward the predicted rate, half-interpolate, or
keep the current count. -/
def proposed_nexplore (nsamples : ℤ) (best_rate : ℚ) : ℤ :=
  if best_rate > 2 * nsamples then 2 * nsamples
  else if best_rate > nsamples then ⌈((nsamples : ℚ) + best_rate) / 2⌉
  else nsamples

/-- Embeds the budget handling of `AETCBLUE._explore_step` (source lines
1411-1425): when the remaining exploitation budget would be negative the
explore count is first clipped to `int(total_budget/explore_cost)` (lines
1411-1412), and only afterwards, if the remaining budget is still
negative, is the RuntimeError "Exploitation budget is negative" raised
(lines 1424-1425). -/
def explore_step_nexplore (total_budget explore_cost : ℚ) (nsamples : ℤ)
    (best_rate : ℚ) : Except String ℤ :=
  let n₁ := proposed_nexplore nsamples best_rate
  let n₂ := if total_budget - n₁ * explore_cost < 0 then
      pyInt (total_budget / explore_cost)
    else n₁
  if total_budget - n₂ * explore_cost < 0 then
    .error "Exploitation budget is negative"
  else .ok n₂

/-- C8 counterexample: with `total_budget = 10`, `explore_cost = 3`,
`nsamples = 2`, `best_rate = 100`, the proposed explore count (4) makes
the remaining exploitation budget negative, yet `_explore_step` does not
raise — it silently clips the count to `int(10/3) = 3` and returns. -/
theorem c8_negative_budget_clipped_counterexample :
    ((10 : ℚ) - (proposed_nexplore 2 100 : ℚ) * 3 < 0) ∧
    explore_step_nexplore 10 3 2 100 = .ok 3 := by
  constructor
  · norm_num [proposed_nexplore]
  · norm_num [explore_step_nexplore, proposed_nexplore, pyInt]

/-- C8 (amended): when the remaining exploitation budget would be
negative the explore count is first clipped to
`int(total_budget/explore_cost)`; the RuntimeError is raised only if the
budget is still negative after the clip, which cannot happen for a
non-negative total budget and positive explore cost — there
`_explore_step` always returns, with a count that fits the budget. -/
theorem c8_budget_clip_then_guard (total_budget explore_cost : ℚ)
    (nsamples : ℤ) (best_rate : ℚ)
    (htb : 0 ≤ total_budget) (hec : 0 < explore_cost) :
    ∃ n : ℤ,
      explore_step_nexplore total_budget explore_cost nsamples best_rate =
        .ok n ∧
      0 ≤ total_budget - n * explore_cost ∧
      n = (if total_budget -
              (proposed_nexplore nsamples best_rate) * explore_cost < 0 then
            pyInt (total_budget / explore_cost)
          else proposed_nexplore nsamples best_rate) := by
  by_cases h : total_budget -
      (proposed_nexplore nsamples best_rate : ℚ) * explore_cost < 0
  · have hq0 : 0 ≤ total_budget / explore_cost :=
      div_nonneg htb hec.le
    have hpy : pyInt (total_budget / explore_cost) =
        ⌊total_budget / explore_cost⌋ := by simp [pyInt, hq0]
    have hle : (⌊total_budget / explore_cost⌋ : ℚ) * explore_cost ≤
        total_budget := by
      have h1 : (⌊total_budget / explore_cost⌋ : ℚ) ≤
          total_budget / explore_cost := Int.floor_le _
      calc (⌊total_budget / explore_cost⌋ : ℚ) * explore_cost
          ≤ (total_budget / explore_cost) * explore_cost :=
            mul_le_mul_of_nonneg_right h1 hec.le
        _ = total_budget := div_mul_cancel₀ _ hec.ne'
    refine ⟨⌊total_budget / explore_cost⌋, ?_, by linarith, by simp [h, hpy]⟩
    simp only [explore_step_nexplore, if_pos h, hpy]
    rw [if_neg (by push_neg; linarith)]
  · refine ⟨proposed_nexplore nsamples best_rate, ?_, by linarith, by simp [h]⟩
    simp only [explore_step_nexplore, if_neg h]

/-- C8 witness: instantiates the amended statement at
`total_budget = 10, explore_cost = 3, nsamples = 2, best_rate = 100`. -/
theorem c8_budget_clip_then_guard_witness :
    (0 : ℚ) ≤ 10 ∧ (0 : ℚ) < 3 ∧
    ∃ n : ℤ, explore_step_nexplore 10 3 2 100 = .ok n ∧
      (0 : ℚ) ≤ 10 - n * 3 ∧
      n = (if (10 : ℚ) - (proposed_nexplore 2 100) * 3 < 0 then
            pyInt (10 / 3) else proposed_nexplore 2 100) :=
  ⟨by norm_num, by norm_num,
    c8_budget_clip_then_guard 10 3 2 100 (by norm_num) (by norm_num)⟩

/-- Embeds the fraction normalisation of `MLBLUEstimator.allocate_samples`
(source lines 1243-1245): clip the solver output at zero and normalise to
sum one. -/
def mlblue_frac (x : List ℚ) : List ℚ :=
  let y := x.map (fun v => max 0 v)
  y.map (fun v => v / y.sum)

/-- Embeds the fractional per-subset sample counts of
`MLBLUEstimator.allocate_samples` (source lines 1248-1251):
`target_cost * frac_i / subset_cost_i`.  The per-subset costs come from
`_get_model_subset_costs`; `get_model_subsets` lives in the absent module
`multilevelblue.py`, so the subset costs are a parameter (the spec makes
them sums of positive model costs over non-empty subsets, hence
positive). -/
def mlblue_raw (target_cost : ℚ) (subset_costs x : List ℚ) : List ℚ :=
  List.zipWith (fun f sc => target_cost * f / sc) (mlblue_frac x) subset_costs

/-- Embeds the integer rounding and realized cost of
`MLBLUEstimator.allocate_samples` with `round_nsamples=True` (source lines
1252-1254): `.astype(int)` truncation of each fractional count, then
`rounded_target_cost = Σ counts_i * subset_costs_i`. -/
def mlblue_allocate_counts (target_cost : ℚ) (subset_costs x : List ℚ) :
    List ℤ × ℚ :=
  let counts := (mlblue_raw target_cost subset_costs x).map pyInt
  let rtc := (List.zipWith (fun (n : ℤ) sc => (n : ℚ) * sc)
    counts subset_costs).sum
  (counts, rtc)

lemma zipWith_div_nonneg (tc : ℚ) (htc : 0 ≤ tc) :
    ∀ (fs scs : List ℚ), (∀ f ∈ fs, 0 ≤ f) → (∀ sc ∈ scs, 0 ≤ sc) →
    ∀ q ∈ List.zipWith (fun f sc => tc * f / sc) fs scs, 0 ≤ q := by
  intro fs
  induction fs with
  | nil => intro scs _ _ q hq; simp at hq
  | cons f fs ih =>
    intro scs hf hsc q hq
    cases scs with
    | nil => simp at hq
    | cons sc scs =>
      simp only [List.zipWith_cons_cons, List.mem_cons] at hq
      rcases hq with hq | hq
      · subst hq
        exact div_nonneg (mul_nonneg htc (hf f (by simp)))
          (hsc sc (by simp))
      · exact ih scs (fun g hg => hf g (by simp [hg]))
          (fun s hs => hsc s (by simp [hs])) q hq

lemma sum_trunc_mul_le (tc : ℚ) (htc : 0 ≤ tc) :
    ∀ (fs scs : List ℚ), (∀ f ∈ fs, 0 ≤ f) → (∀ sc ∈ scs, 0 < sc) →
    (List.zipWith (fun (n : ℤ) sc => (n : ℚ) * sc)
      ((List.zipWith (fun f sc => tc * f / sc) fs scs).map pyInt) scs).sum ≤
      tc * fs.sum := by
  intro fs
  induction fs with
  | nil => intro scs _ _; simp
  | cons f fs ih =>
    intro scs hf hsc
    cases scs with
    | nil =>
      simp only [List.zipWith_nil_right, List.map_nil, List.zipWith_nil_left,
        List.sum_nil]
      exact mul_nonneg htc (List.sum_nonneg hf)
    | cons sc scs =>
      simp only [List.zipWith_cons_cons, List.map_cons, List.sum_cons]
      have hsc0 : 0 < sc := hsc sc (by simp)
      have hf0 : 0 ≤ f := hf f (by simp)
      have hq0 : 0 ≤ tc * f / sc :=
        div_nonneg (mul_nonneg htc hf0) hsc0.le
      have hhead : ((pyInt (tc * f / sc) : ℚ)) * sc ≤ tc * f := by
        have h1 : ((pyInt (tc * f / sc) : ℚ)) ≤ tc * f / sc := by
          simp only [pyInt, if_pos hq0]
          exact Int.floor_le _
        calc ((pyInt (tc * f / sc) : ℚ)) * sc
            ≤ (tc * f / sc) * sc := mul_le_mul_of_nonneg_right h1 hsc0.le
          _ = tc * f := div_mul_cancel₀ _ hsc0.ne'
      have htail := ih scs (fun g hg => hf g (by simp [hg]))
        (fun s hs => hsc s (by simp [hs]))
      calc ((pyInt (tc * f / sc) : ℚ)) * sc +
            (List.zipWith (fun (n : ℤ) sc => (n : ℚ) * sc)
              ((List.zipWith (fun f sc => tc * f / sc) fs scs).map pyInt)
              scs).sum
          ≤ tc * f + tc * fs.sum := add_le_add hhead htail
        _ = tc * (f + fs.sum) := by ring
        _ = tc * (f :: fs).sum := by simp

lemma sum_map_div_eq (l : List ℚ) (s : ℚ) :
    (l.map (fun v => v / s)).sum = l.sum / s := by
  induction l with
  | nil => simp
  | cons a l ih => simp [ih, add_div]

lemma mlblue_frac_sum_eq_one (x : List ℚ)
    (hy : 0 < (x.map (fun v => max 0 v)).sum) :
    (mlblue_frac x).sum = 1 := by
  simp only [mlblue_frac]
  rw [sum_map_div_eq]
  exact div_self hy.ne'

lemma mlblue_frac_nonneg (x : List ℚ)
    (hy : 0 < (x.map (fun v => max 0 v)).sum) :
    ∀ f ∈ mlblue_frac x, 0 ≤ f := by
  intro f hf
  simp only [mlblue_frac, List.mem_map] at hf
  obtain ⟨v, hv, rfl⟩ := hf
  obtain ⟨w, _, rfl⟩ := hv
  exact div_nonneg (le_max_left 0 w) hy.le

/-- C9: with `round_nsamples=True`, MLBLUE's fractional per-subset counts
are truncated downward (floor of the non-negative fractions), so the
realized rounded cost `Σ counts_i · subset_cost_i` never exceeds the
requested `target_cost`. -/
theorem c9_mlblue_rounded_cost_within_budget
    (target_cost : ℚ) (subset_costs x : List ℚ)
    (htc : 0 ≤ target_cost) (hsc : ∀ sc ∈ subset_costs, 0 < sc)
    (hy : 0 < (x.map (fun v => max 0 v)).sum) :
    (mlblue_allocate_counts target_cost subset_costs x).1 =
      (mlblue_raw target_cost subset_costs x).map (fun q => ⌊q⌋) ∧
    (mlblue_allocate_counts target_cost subset_costs x).2 ≤ target_cost := by
  constructor
  · apply List.map_congr_left
    intro q hq
    have h0 : 0 ≤ q := zipWith_div_nonneg target_cost htc _ _
      (mlblue_frac_nonneg x hy) (fun s hs => (hsc s hs).le) q hq
    simp [pyInt, h0]
  · have h := sum_trunc_mul_le target_cost htc (mlblue_frac x) subset_costs
      (mlblue_frac_nonneg x hy) hsc
    rw [mlblue_frac_sum_eq_one x hy, mul_one] at h
    exact h

/-- C9 witness: at `target_cost = 10`, `subset_costs = [1, 2]`,
solver output `x = [1, 3]` the fractions are `[1/4, 3/4]`, the raw counts
`[5/2, 15/4]` truncate down to `[2, 3]`, and the realized cost
`2·1 + 3·2 = 8 ≤ 10`. -/
theorem c9_mlblue_rounded_cost_within_budget_witness :
    mlblue_allocate_counts 10 [1, 2] [1, 3] =
      ([2, 3], 8) ∧
    (mlblue_allocate_counts 10 [1, 2] [1, 3]).2 ≤ 10 := by
  constructor
  · norm_num [mlblue_allocate_counts, mlblue_raw, mlblue_frac, pyInt]
  · exact (c9_mlblue_rounded_cost_within_budget 10 [1, 2] [1, 3]
      (by norm_num) (by norm_num) (by norm_num)).2

/-- Attribute state persisted by `AbstractACVEstimator.set_optimized_params`
(source lines 448-472). -/
structure ACVState where
  nsample_ratios : List ℚ
  rounded_target_cost : ℚ
  nsamples_per_model : List ℚ
  optimized_variance : ℚ
  deriving DecidableEq, Repr

/-- Embeds `AbstractACVEstimator.set_optimized_params` (source lines
448-472): stores the rounded ratios, rounded target cost and optimized
variance, and recomputes `nsamples_per_model` with
`get_nsamples_per_model(..., True)`. -/
def set_optimized_params (costs nsample_ratios : List ℚ)
    (rounded_target_cost optimized_variance : ℚ) : ACVState :=
  ⟨nsample_ratios, rounded_target_cost,
    get_nsamples_per_model rounded_target_cost costs nsample_ratios true,
    optimized_variance⟩

/-- Embeds `AbstractACVEstimator.allocate_samples` (source lines 411-446):
the family's continuous `_allocate_samples` result is the parameter
`continuous_ratios`; the method rounds it with `round_nsample_ratios`,
evaluates the variance at the rounded allocation, persists everything via
`set_optimized_params`, and returns the triple
`(nsample_ratios, variance, rounded_target_cost)`. -/
def acv_allocate_samples (cov00 : ℚ) (rsquared : List ℚ → ℚ)
    (costs continuous_ratios : List ℚ) (target_cost : ℚ) :
    (List ℚ × ℚ × ℚ) × ACVState :=
  let rr := round_nsample_ratios target_cost costs continuous_ratios
  let variance := acv_get_variance cov00 rsquared rr.2 costs rr.1
  ((rr.1, variance, rr.2), set_optimized_params costs rr.1 rr.2 variance)

lemma dotq_map_div (l : List ℤ) (d : ℚ) :
    ∀ cs : List ℚ, dotq (l.map (fun (n : ℤ) => (n : ℚ) / d)) cs =
      dotq (l.map (fun (n : ℤ) => (n : ℚ))) cs / d := by
  induction l with
  | nil => intro cs; simp [dotq]
  | cons a l ih =>
    intro cs
    cases cs with
    | nil => simp [dotq]
    | cons c cs =>
      simp only [List.map_cons, dotq, List.zipWith_cons_cons, List.sum_cons]
      have h := ih cs
      simp only [dotq] at h
      rw [h, add_div, div_mul_eq_mul_div]

lemma dotq_nonneg (a : List ℚ) :
    ∀ b : List ℚ, (∀ x ∈ a, 0 ≤ x) → (∀ y ∈ b, 0 ≤ y) → 0 ≤ dotq a b := by
  induction a with
  | nil => intro b _ _; simp [dotq]
  | cons x a ih =>
    intro b ha hb
    cases b with
    | nil => simp [dotq]
    | cons y b =>
      simp only [dotq, List.zipWith_cons_cons, List.sum_cons]
      have h1 : 0 ≤ x * y :=
        mul_nonneg (ha x (by simp)) (hb y (by simp))
      have h2 := ih b (fun x hx => ha x (by simp [hx]))
        (fun y hy => hb y (by simp [hy]))
      simp only [dotq] at h2
      exact add_nonneg h1 h2

lemma rnd_intCast (k : ℤ) : rnd ((k : ℤ) : ℚ) = k := by
  simp only [rnd]
  rw [Int.floor_int_add]
  norm_num

lemma rnd_nonneg (q : ℚ) (hq : 0 ≤ q) : 0 ≤ rnd q := by
  simp only [rnd]
  positivity

lemma roundtrip_nhf (c0 : ℚ) (cs ratios : List ℚ) (tc : ℚ)
    (hc0 : 0 < c0) (hcs : ∀ c ∈ cs, 0 ≤ c) (hr : ∀ r ∈ ratios, 0 ≤ r)
    (hn : 1 ≤ ⌊get_nhf_samples tc (c0 :: cs) ratios⌋) :
    get_nhf_samples (round_nsample_ratios tc (c0 :: cs) ratios).2 (c0 :: cs)
        (round_nsample_ratios tc (c0 :: cs) ratios).1 =
      ((⌊get_nhf_samples tc (c0 :: cs) ratios⌋ : ℤ) : ℚ) := by
  set N : ℤ := ⌊get_nhf_samples tc (c0 :: cs) ratios⌋ with hNdef
  have hN1 : (1 : ℚ) ≤ (N : ℚ) := by exact_mod_cast hn
  have hN0 : (0 : ℚ) < (N : ℚ) := lt_of_lt_of_le zero_lt_one hN1
  set nlf : List ℤ := ratios.map (fun r => rnd (r * N)) with hnlfdef
  have hround : round_nsample_ratios tc (c0 :: cs) ratios =
      (nlf.map (fun (n : ℤ) => (n : ℚ) / (N : ℚ)),
       c0 * (N : ℚ) + dotq (nlf.map (fun (n : ℤ) => (n : ℚ))) cs) := rfl
  set D : ℚ := dotq (nlf.map (fun (n : ℤ) => (n : ℚ))) cs with hDdef
  have hDnn : 0 ≤ D := by
    apply dotq_nonneg
    · intro x hx
      obtain ⟨n, hn1, rfl⟩ := List.mem_map.mp hx
      obtain ⟨r, hr1, rfl⟩ := List.mem_map.mp hn1
      have : 0 ≤ rnd (r * N) :=
        rnd_nonneg _ (mul_nonneg (hr r hr1) hN0.le)
      exact_mod_cast this
    · exact hcs
  have hrtc : 0 < c0 * (N : ℚ) + D := by nlinarith
  rw [hround]
  simp only [get_nhf_samples, List.headD_cons, List.tail_cons]
  rw [dotq_map_div nlf ((N : ℤ) : ℚ) cs, ← hDdef]
  have hden : c0 + D / (N : ℚ) = (c0 * (N : ℚ) + D) / (N : ℚ) := by
    field_simp
  rw [hden, div_div_eq_mul_div, mul_comm, mul_div_assoc,
    div_self hrtc.ne', mul_one]

lemma roundtrip_nsamples (c0 : ℚ) (cs ratios : List ℚ) (tc : ℚ)
    (hc0 : 0 < c0) (hcs : ∀ c ∈ cs, 0 ≤ c) (hr : ∀ r ∈ ratios, 0 ≤ r)
    (hn : 1 ≤ ⌊get_nhf_samples tc (c0 :: cs) ratios⌋) :
    get_nsamples_per_model (round_nsample_ratios tc (c0 :: cs) ratios).2
        (c0 :: cs) (round_nsample_ratios tc (c0 :: cs) ratios).1 false =
      ((⌊get_nhf_samples tc (c0 :: cs) ratios⌋ : ℤ) : ℚ) ::
        (ratios.map (fun r =>
          ((rnd (r * ⌊get_nhf_samples tc (c0 :: cs) ratios⌋) : ℤ) : ℚ))) ∧
    get_nsamples_per_model (round_nsample_ratios tc (c0 :: cs) ratios).2
        (c0 :: cs) (round_nsample_ratios tc (c0 :: cs) ratios).1 true =
      get_nsamples_per_model (round_nsample_ratios tc (c0 :: cs) ratios).2
        (c0 :: cs) (round_nsample_ratios tc (c0 :: cs) ratios).1 false := by
  have hA := roundtrip_nhf c0 cs ratios tc hc0 hcs hr hn
  set N : ℤ := ⌊get_nhf_samples tc (c0 :: cs) ratios⌋ with hNdef
  have hN1 : (1 : ℚ) ≤ (N : ℚ) := by exact_mod_cast hn
  have hN0 : (0 : ℚ) < (N : ℚ) := lt_of_lt_of_le zero_lt_one hN1
  set nlf : List ℤ := ratios.map (fun r => rnd (r * N)) with hnlfdef
  have hfst : (round_nsample_ratios tc (c0 :: cs) ratios).1 =
      nlf.map (fun (n : ℤ) => (n : ℚ) / (N : ℚ)) := rfl
  have hmap : (nlf.map (fun (n : ℤ) => (n : ℚ) / (N : ℚ))).map
      (fun x => x * ((N : ℤ) : ℚ)) = nlf.map (fun (n : ℤ) => (n : ℚ)) := by
    rw [List.map_map]
    apply List.map_congr_left
    intro n _
    simp only [Function.comp_apply]
    exact div_mul_cancel₀ _ hN0.ne'
  have hfalse : get_nsamples_per_model
      (round_nsample_ratios tc (c0 :: cs) ratios).2 (c0 :: cs)
      (round_nsample_ratios tc (c0 :: cs) ratios).1 false =
      ((N : ℤ) : ℚ) :: nlf.map (fun (n : ℤ) => (n : ℚ)) := by
    simp only [get_nsamples_per_model, Bool.false_eq_true, if_false]
    rw [hA, hfst, hmap]
  constructor
  · rw [hfalse, hnlfdef, List.map_map]
    rfl
  · have htrue : get_nsamples_per_model
        (round_nsample_ratios tc (c0 :: cs) ratios).2 (c0 :: cs)
        (round_nsample_ratios tc (c0 :: cs) ratios).1 true =
        (((N : ℤ) : ℚ) :: nlf.map (fun (n : ℤ) => (n : ℚ))).map
          (fun q => ((rnd q : ℤ) : ℚ)) := by
      simp only [get_nsamples_per_model, if_true]
      rw [hA, hfst, hmap]
    rw [htrue, hfalse]
    simp only [List.map_cons, List.map_map]
    congr 1
    · rw [rnd_intCast]
    · apply List.map_congr_left
      intro n _
      simp only [Function.comp_apply]
      rw [rnd_intCast]

/-- C2 (amended): for estimators using the base-class
`AbstractACVEstimator.allocate_samples` (MLMC, MFMC, ACVMF, ACVIS, ACVGMF),
the returned triple is `(sample_ratios, variance, rounded_target_cost)`
and afterwards `nsample_ratios`, `optimized_variance` and
`rounded_target_cost` equal the returned components,
`nsamples_per_model` equals
`get_nsamples_per_model(rounded_target_cost, costs, sample_ratios)`, and
evaluating `get_nsamples_per_model` on the optimizer's own rounded output
yields exactly integer sample counts (idempotent rounding round-trip);
ACVGMFB overrides `allocate_samples` and returns the triple in the order
`(sample_ratios, rounded_target_cost, variance)` instead. -/
theorem c2_acv_allocate_persistence_roundtrip
    (cov00 : ℚ) (rsquared : List ℚ → ℚ) (c0 : ℚ) (cs ratios : List ℚ)
    (tc : ℚ) (rr : List ℚ) (v rtc : ℚ) (st : ACVState)
    (hout : acv_allocate_samples cov00 rsquared (c0 :: cs) ratios tc =
      ((rr, v, rtc), st))
    (hc0 : 0 < c0) (hcs : ∀ c ∈ cs, 0 ≤ c) (hr : ∀ r ∈ ratios, 0 ≤ r)
    (hn : 1 ≤ ⌊get_nhf_samples tc (c0 :: cs) ratios⌋) :
    st.nsample_ratios = rr ∧
    st.optimized_variance = v ∧
    st.rounded_target_cost = rtc ∧
    st.nsamples_per_model = get_nsamples_per_model rtc (c0 :: cs) rr true ∧
    get_nsamples_per_model rtc (c0 :: cs) rr false = st.nsamples_per_model ∧
    (∀ q ∈ st.nsamples_per_model, ∃ k : ℤ, q = (k : ℚ)) := by
  have hout' : acv_allocate_samples cov00 rsquared (c0 :: cs) ratios tc =
      (((round_nsample_ratios tc (c0 :: cs) ratios).1,
        acv_get_variance cov00 rsquared
          (round_nsample_ratios tc (c0 :: cs) ratios).2 (c0 :: cs)
          (round_nsample_ratios tc (c0 :: cs) ratios).1,
        (round_nsample_ratios tc (c0 :: cs) ratios).2),
       set_optimized_params (c0 :: cs)
         (round_nsample_ratios tc (c0 :: cs) ratios).1
         (round_nsample_ratios tc (c0 :: cs) ratios).2
         (acv_get_variance cov00 rsquared
           (round_nsample_ratios tc (c0 :: cs) ratios).2 (c0 :: cs)
           (round_nsample_ratios tc (c0 :: cs) ratios).1)) := rfl
  rw [hout'] at hout
  have h1 := congrArg Prod.fst hout
  have h2 := congrArg Prod.snd hout
  simp only at h1 h2
  have hrr : (round_nsample_ratios tc (c0 :: cs) ratios).1 = rr :=
    congrArg Prod.fst h1
  have hvc := congrArg Prod.snd h1
  have hv : acv_get_variance cov00 rsquared
      (round_nsample_ratios tc (c0 :: cs) ratios).2 (c0 :: cs)
      (round_nsample_ratios tc (c0 :: cs) ratios).1 = v :=
    congrArg Prod.fst hvc
  have hrtc : (round_nsample_ratios tc (c0 :: cs) ratios).2 = rtc :=
    congrArg Prod.snd hvc
  have hrt := roundtrip_nsamples c0 cs ratios tc hc0 hcs hr hn
  subst hrr hv hrtc
  rw [← h2]
  refine ⟨rfl, rfl, rfl, rfl, ?_, ?_⟩
  · exact (hrt.2).symm
  · intro q hq
    simp only [set_optimized_params] at hq
    rw [hrt.2, hrt.1] at hq
    rcases List.mem_cons.mp hq with h | h
    · exact ⟨⌊get_nhf_samples tc (c0 :: cs) ratios⌋, h⟩
    · obtain ⟨r, _, rfl⟩ := List.mem_map.mp h
      exact ⟨rnd (r * ⌊get_nhf_samples tc (c0 :: cs) ratios⌋), rfl⟩

/-- C2 witness: a concrete run of the base-class `allocate_samples` at
`cov00 = 1`, `rsquared ≡ 0`, `costs = [1, 1/2]`, continuous ratios `[2]`,
`target_cost = 10`, whose persisted sample counts `[5, 10]` are exact
integers. -/
theorem c2_acv_allocate_persistence_roundtrip_witness :
    acv_allocate_samples 1 (fun _ => 0) [1, 1/2] [2] 10 =
      (([2], 1/5, 10), ⟨[2], 10, [5, 10], 1/5⟩) ∧
    (∀ q ∈ (ACVState.mk [2] 10 [5, 10] (1/5)).nsamples_per_model,
      ∃ k : ℤ, q = (k : ℚ)) := by
  have hnhf : get_nhf_samples 10 [1, 1/2] [2] = 5 := by
    norm_num [get_nhf_samples, dotq]
  have hfl : (⌊get_nhf_samples 10 [1, 1/2] [2]⌋ : ℤ) = 5 := by
    rw [hnhf]
    norm_num
  have hrnd10 : rnd (2 * ((5 : ℤ) : ℚ)) = 10 := by
    norm_num [rnd]
  have hround : round_nsample_ratios 10 [1, 1/2] [2] = ([2], 10) := by
    simp only [round_nsample_ratios, hfl, List.map_cons, List.map_nil,
      List.headD_cons, List.tail_cons, hrnd10]
    norm_num [dotq]
  have hnhf2 : get_nhf_samples 10 [1, 1/2] [2] = 5 := hnhf
  have hvar : acv_get_variance 1 (fun _ => 0) 10 [1, 1/2] [2] = 1/5 := by
    simp only [acv_get_variance, variance_reduction, hnhf]
    norm_num
  have hns : get_nsamples_per_model 10 [1, 1/2] [2] true = [5, 10] := by
    simp only [get_nsamples_per_model, if_true, hnhf, List.map_cons,
      List.map_nil]
    norm_num [rnd]
  have hout : acv_allocate_samples 1 (fun _ => 0) [1, 1/2] [2] 10 =
      (([2], 1/5, 10), ⟨[2], 10, [5, 10], 1/5⟩) := by
    simp only [acv_allocate_samples, hround, set_optimized_params, hvar, hns]
  have h := c2_acv_allocate_persistence_roundtrip 1 (fun _ => 0) 1 [1/2]
    [2] 10 [2] (1/5) 10 ⟨[2], 10, [5, 10], 1/5⟩ hout (by norm_num)
    (by norm_num) (by norm_num) (by rw [hfl]; norm_num)
  exact ⟨hout, h.2.2.2.2.2⟩

/-- Attribute state of an `ACVGMFEstimator`/`ACVGMFBEstimator` touched by
the recursion-tree search of `ACVGMFBEstimator.allocate_samples` (source
lines 818-836). -/
structure GMFBState where
  recursion_index : List ℕ
  nsample_ratios : List ℚ
  rounded_target_cost : ℚ
  optimized_variance : WithTop ℚ
  deriving DecidableEq, Repr

/-- Variance a candidate recursion index contributes to the search: the
continuous solve (`super().allocate_samples`, returning
`(ratios, variance, rounded_target_cost)`) may raise RuntimeError, in
which case `ACVGMFBEstimator.allocate_samples` assigns
`optimized_variance = np.inf` (source lines 826-829). -/
def candVar (solve : List ℕ → Except Unit (List ℚ × ℚ × ℚ))
    (index : List ℕ) : WithTop ℚ :=
  match solve index with
  | .ok (_, v, _) => ((v : ℚ) : WithTop ℚ)
  | .error _ => ⊤

/-- Data recorded for a successful candidate, in the order
`[nsample_ratios, rounded_target_cost, optimized_variance, index]` of
`best_result` (source line 831). -/
def candPayload (solve : List ℕ → Except Unit (List ℚ × ℚ × ℚ))
    (index : List ℕ) : Option (List ℚ × ℚ × WithTop ℚ × List ℕ) :=
  match solve index with
  | .ok (r, v, c) => some (r, c, ((v : ℚ) : WithTop ℚ), index)
  | .error _ => none

/-- Effect of one loop iteration on the estimator state (source lines
822-829): `set_recursion_index(index)`, then `super().allocate_samples`,
which on success overwrites ratios, rounded cost and variance, and on
RuntimeError leaves the stale ratios/cost and sets the variance to
infinity. -/
def gmfb_step (solve : List ℕ → Except Unit (List ℚ × ℚ × ℚ))
    (st : GMFBState) (index : List ℕ) : GMFBState :=
  match solve index with
  | .ok (r, v, c) => ⟨index, r, c, ((v : ℚ) : WithTop ℚ)⟩
  | .error _ => ⟨index, st.nsample_ratios, st.rounded_target_cost, ⊤⟩

/-- The candidate loop of `ACVGMFBEstimator.allocate_samples` (source
lines 819-833): tracks `best_variance` (initially `np.inf`) and
`best_result` (initially `None`), updating them when the candidate's
variance is strictly smaller than the best so far. -/
def gmfb_loop (solve : List ℕ → Except Unit (List ℚ × ℚ × ℚ)) :
    List (List ℕ) → GMFBState → WithTop ℚ →
    Option (List ℚ × ℚ × WithTop ℚ × List ℕ) →
    GMFBState × Option (List ℚ × ℚ × WithTop ℚ × List ℕ)
  | [], st, _, best => (st, best)
  | index :: rest, st, best_variance, best =>
    let st1 := gmfb_step solve st index
    if st1.optimized_variance < best_variance then
      gmfb_loop solve rest st1 st1.optimized_variance
        (some (st1.nsample_ratios, st1.rounded_target_cost,
          st1.optimized_variance, index))
    else
      gmfb_loop solve rest st1 best_variance best

/-- Embeds `ACVGMFBEstimator.allocate_samples` (source lines 818-836): run
the candidate loop over the enumerated recursion indices, then
`set_recursion_index(best_result[3])`, `set_optimized_params` on
`best_result[:3]` and return `best_result[:3]` — the triple in the order
`(nsample_ratios, rounded_target_cost, optimized_variance)`.  When every
candidate failed, `best_result` is still `None` and the Python subscript
`best_result[3]` raises a TypeError, embedded as an error.  The
enumeration `get_acv_recursion_indices(nmodels, depth)` lives in the
absent module `control_variate_monte_carlo.py`, so the candidate list is
a parameter. -/
def gmfb_allocate_samples (solve : List ℕ → Except Unit (List ℚ × ℚ × ℚ))
    (indices : List (List ℕ)) (st0 : GMFBState) :
    Except Unit ((List ℚ × ℚ × WithTop ℚ) × GMFBState) :=
  match (gmfb_loop solve indices st0 ⊤ none).2 with
  | none => .error ()
  | some (r, c, v, index) => .ok ((r, c, v), ⟨index, r, c, v⟩)

/-- Minimum candidate variance over a list of recursion indices. -/
def minVar (solve : List ℕ → Except Unit (List ℚ × ℚ × ℚ))
    (l : List (List ℕ)) : WithTop ℚ :=
  (l.map (candVar solve)).foldr min ⊤

lemma gmfb_step_variance (solve : List ℕ → Except Unit (List ℚ × ℚ × ℚ))
    (st : GMFBState) (index : List ℕ) :
    (gmfb_step solve st index).optimized_variance = candVar solve index := by
  cases h : solve index with
  | ok x =>
    obtain ⟨r, v, c⟩ := x
    simp [gmfb_step, candVar, h]
  | error e => simp [gmfb_step, candVar, h]

lemma gmfb_step_payload (solve : List ℕ → Except Unit (List ℚ × ℚ × ℚ))
    (st : GMFBState) (index : List ℕ)
    (hok : candVar solve index < ⊤) :
    some ((gmfb_step solve st index).nsample_ratios,
      (gmfb_step solve st index).rounded_target_cost,
      candVar solve index, index) =
      candPayload solve index := by
  cases h : solve index with
  | ok x =>
    obtain ⟨r, v, c⟩ := x
    simp [gmfb_step, candVar, candPayload, h]
  | error e =>
    exfalso
    rw [candVar, h] at hok
    exact absurd hok (lt_irrefl ⊤)

lemma minVar_cons (solve : List ℕ → Except Unit (List ℚ × ℚ × ℚ))
    (index : List ℕ) (rest : List (List ℕ)) :
    minVar solve (index :: rest) =
      min (candVar solve index) (minVar solve rest) := by
  simp [minVar]

lemma gmfb_loop_best (solve : List ℕ → Except Unit (List ℚ × ℚ × ℚ)) :
    ∀ (l : List (List ℕ)) (st : GMFBState) (bv : WithTop ℚ)
      (best : Option (List ℚ × ℚ × WithTop ℚ × List ℕ)),
    (gmfb_loop solve l st bv best).2 =
      if minVar solve l < bv then
        (l.find? (fun j => decide (candVar solve j = minVar solve l))).bind
          (candPayload solve)
      else best := by
  intro l
  induction l with
  | nil =>
    intro st bv best
    have h : ¬ minVar solve [] < bv := by
      simp only [minVar, List.map_nil, List.foldr_nil]
      exact not_top_lt
    simp [gmfb_loop, h]
  | cons index rest ih =>
    intro st bv best
    rw [gmfb_loop]
    simp only [gmfb_step_variance]
    by_cases h1 : candVar solve index < bv
    · rw [if_pos h1, ih, minVar_cons]
      by_cases h2 : minVar solve rest < candVar solve index
      · have hmin : min (candVar solve index) (minVar solve rest) =
            minVar solve rest := min_eq_right h2.le
        rw [hmin, if_pos h2, if_pos (lt_trans h2 h1)]
        have hne : ¬ (decide (candVar solve index = minVar solve rest) =
            true) := by
          simp only [decide_eq_true_eq]
          exact fun he => absurd (he ▸ h2) (lt_irrefl _)
        rw [List.find?_cons_of_neg
          (p := fun j => decide (candVar solve j = minVar solve rest))
          (a := index) rest hne]
      · have hle : candVar solve index ≤ minVar solve rest := not_lt.mp h2
        have hmin : min (candVar solve index) (minVar solve rest) =
            candVar solve index := min_eq_left hle
        rw [hmin, if_neg h2, if_pos h1]
        rw [List.find?_cons_of_pos _ (by simp)]
        simp only [Option.bind_eq_bind, Option.some_bind]
        exact gmfb_step_payload solve st index
          (lt_of_lt_of_le h1 le_top)
    · rw [if_neg h1, ih, minVar_cons]
      have hbvle : bv ≤ candVar solve index := not_lt.mp h1
      by_cases h3 : minVar solve rest < bv
      · have h4 : minVar solve rest < candVar solve index :=
          lt_of_lt_of_le h3 hbvle
        have hmin : min (candVar solve index) (minVar solve rest) =
            minVar solve rest := min_eq_right h4.le
        rw [hmin, if_pos h3, if_pos h3]
        have hne : ¬ (decide (candVar solve index = minVar solve rest) =
            true) := by
          simp only [decide_eq_true_eq]
          exact fun he => absurd (he ▸ h4) (lt_irrefl _)
        rw [List.find?_cons_of_neg
          (p := fun j => decide (candVar solve j = minVar solve rest))
          (a := index) rest hne]
      · have h5 : ¬ min (candVar solve index) (minVar solve rest) < bv := by
          rw [not_lt, le_min_iff]
          exact ⟨hbvle, not_lt.mp h3⟩
        rw [if_neg h3, if_neg h5]

lemma minVar_le (solve : List ℕ → Except Unit (List ℚ × ℚ × ℚ)) :
    ∀ (l : List (List ℕ)) (j : List ℕ), j ∈ l →
      minVar solve l ≤ candVar solve j := by
  intro l
  induction l with
  | nil => intro j hj; simp at hj
  | cons index rest ih =>
    intro j hj
    rw [minVar_cons]
    rcases List.mem_cons.mp hj with h | h
    · subst h; exact min_le_left _ _
    · exact le_trans (min_le_right _ _) (ih j h)

lemma minVar_attained (solve : List ℕ → Except Unit (List ℚ × ℚ × ℚ)) :
    ∀ (l : List (List ℕ)), minVar solve l < ⊤ →
      ∃ j ∈ l, candVar solve j = minVar solve l := by
  intro l
  induction l with
  | nil =>
    intro h
    simp only [minVar, List.map_nil, List.foldr_nil] at h
    exact absurd h (lt_irrefl ⊤)
  | cons index rest ih =>
    intro h
    rw [minVar_cons] at h ⊢
    by_cases h2 : minVar solve rest < candVar solve index
    · have hmin : min (candVar solve index) (minVar solve rest) =
          minVar solve rest := min_eq_right h2.le
      rw [hmin] at h ⊢
      obtain ⟨j, hj, hje⟩ := ih h
      exact ⟨j, by simp [hj], hje⟩
    · have hle : candVar solve index ≤ minVar solve rest := not_lt.mp h2
      have hmin : min (candVar solve index) (minVar solve rest) =
          candVar solve index := min_eq_left hle
      rw [hmin]
      exact ⟨index, by simp, rfl⟩

/-- C1: over any enumerated candidate list (the recursion-tree indices up
to the configured depth) and any continuous-solve behaviour,
`ACVGMFBEstimator.allocate_samples` assigns infinite variance to
candidates whose solve raises and continues the search; whenever at least
one candidate solves, it returns (and persists via
`set_recursion_index`/`set_optimized_params`) the first candidate — in
enumeration order, so ties keep the first-found — whose variance attains
the minimum over all candidates. -/
theorem c1_gmfb_search_min_variance
    (solve : List ℕ → Except Unit (List ℚ × ℚ × ℚ))
    (indices : List (List ℕ)) (st0 : GMFBState)
    (hs : ∃ index ∈ indices, candVar solve index < ⊤) :
    ∃ index r v c,
      indices.find?
        (fun j => decide (candVar solve j = minVar solve indices)) =
        some index ∧
      solve index = .ok (r, v, c) ∧
      ((v : ℚ) : WithTop ℚ) = minVar solve indices ∧
      (∀ j ∈ indices, ((v : ℚ) : WithTop ℚ) ≤ candVar solve j) ∧
      gmfb_allocate_samples solve indices st0 =
        .ok ((r, c, ((v : ℚ) : WithTop ℚ)),
          ⟨index, r, c, ((v : ℚ) : WithTop ℚ)⟩) := by
  obtain ⟨i0, hi0, hv0⟩ := hs
  have hmlt : minVar solve indices < ⊤ :=
    lt_of_le_of_lt (minVar_le solve indices i0 hi0) hv0
  obtain ⟨j0, hj0mem, hj0eq⟩ := minVar_attained solve indices hmlt
  have hsome : (indices.find?
      (fun j => decide (candVar solve j = minVar solve indices))).isSome :=
    List.find?_isSome.mpr ⟨j0, hj0mem, by simp [hj0eq]⟩
  obtain ⟨index, hfind⟩ := Option.isSome_iff_exists.mp hsome
  have hpe : candVar solve index = minVar solve indices := by
    have h := List.find?_some hfind
    simpa using h
  have hlt : candVar solve index < ⊤ := hpe ▸ hmlt
  cases hsi : solve index with
  | error e =>
    rw [candVar, hsi] at hlt
    exact absurd hlt (lt_irrefl ⊤)
  | ok x =>
    obtain ⟨r, v, c⟩ := x
    have hveq : ((v : ℚ) : WithTop ℚ) = minVar solve indices := by
      rw [← hpe, candVar, hsi]
    refine ⟨index, r, v, c, hfind, hsi, hveq, ?_, ?_⟩
    · intro j hj
      rw [hveq]
      exact minVar_le solve indices j hj
    · have hloop := gmfb_loop_best solve indices st0 ⊤ none
      rw [if_pos hmlt, hfind] at hloop
      simp only [Option.bind_eq_bind, Option.some_bind, candPayload,
        hsi] at hloop
      rw [gmfb_allocate_samples, hloop]

/-- Concrete continuous-solve behaviour for the C1 witness: the candidate
`[0]` raises RuntimeError, every other candidate solves with ratios `[2]`,
variance `3` and rounded cost `5`. -/
def c1solve (index : List ℕ) : Except Unit (List ℚ × ℚ × ℚ) :=
  if index = [0] then .error () else .ok ([2], 3, 5)

/-- C1 witness: with candidates `[[0], [1]]`, the failing first candidate
is scored as infinite variance and the search returns the second. -/
theorem c1_gmfb_search_min_variance_witness :
    (∃ index ∈ [[0], [1]], candVar c1solve index < ⊤) ∧
    (∃ index r v c,
      [[0], [1]].find?
        (fun j => decide (candVar c1solve j = minVar c1solve [[0], [1]])) =
        some index ∧
      c1solve index = .ok (r, v, c) ∧
      ((v : ℚ) : WithTop ℚ) = minVar c1solve [[0], [1]] ∧
      (∀ j ∈ [[0], [1]], ((v : ℚ) : WithTop ℚ) ≤ candVar c1solve j) ∧
      gmfb_allocate_samples c1solve [[0], [1]] ⟨[0], [], 0, ⊤⟩ =
        .ok ((r, c, ((v : ℚ) : WithTop ℚ)),
          ⟨index, r, c, ((v : ℚ) : WithTop ℚ)⟩)) :=
  ⟨⟨[1], by simp, by decide⟩,
    c1_gmfb_search_min_variance c1solve [[0], [1]] ⟨[0], [], 0, ⊤⟩
      ⟨[1], by simp, by decide⟩⟩

/-- Concrete continuous-solve behaviour for the C2 counterexample: the
base-class `allocate_samples` returns the triple
`(nsample_ratios, variance, rounded_target_cost) = ([2], 7, 9)`. -/
def c2solve (_ : List ℕ) : Except Unit (List ℚ × ℚ × ℚ) :=
  .ok ([2], 7, 9)

/-- C2 counterexample: `ACVGMFBEstimator.allocate_samples` — an
ACV-family estimator — returns `best_result[:3] =
(nsample_ratios, rounded_target_cost, optimized_variance)`: with a solve
whose variance is `7` and rounded cost is `9`, the returned triple is
`([2], 9, 7)`, whose second component is the rounded target cost `9`, not
the variance `7` the claim requires. -/
theorem c2_gmfb_return_order_counterexample :
    gmfb_allocate_samples c2solve [[0]] ⟨[0], [], 0, ⊤⟩ =
      .ok (([2], 9, ((7 : ℚ) : WithTop ℚ)),
        ⟨[0], [2], 9, ((7 : ℚ) : WithTop ℚ)⟩) ∧
    ((9 : ℚ) : WithTop ℚ) ≠ ((7 : ℚ) : WithTop ℚ) := by
  constructor
  · decide
  · simp only [ne_eq, WithTop.coe_eq_coe]
    norm_num

/-- Heap cell lookup kept on one name: the estimator state a Python
reference points at (out-of-range lookups never occur under the theorems'
hypotheses). -/
def heap_get {σ : Type} [Inhabited σ] (h : List σ) (r : ℕ) : σ :=
  (h[r]?).getD default

/-- Embeds `copy.deepcopy(est)` (source line 1109): allocates a fresh
object holding a copy of the referenced estimator's state; the heap is a
list of states and a reference is an index into it. -/
def copy_one {σ : Type} [Inhabited σ] (h : List σ) (r : ℕ) : ℕ × List σ :=
  (h.length, h ++ [heap_get h r])

/-- Embeds `est_copy.allocate_samples(target_cost)` (source line 1110):
every `allocate_samples` implementation assigns only attributes of
`self`, so the call mutates exactly the referenced cell; the state
transformer `alloc` abstracts the family-specific allocation. -/
def allocate_at {σ : Type} (alloc : σ → ℚ → σ) (h : List σ) (r : ℕ)
    (tc : ℚ) : List σ :=
  match h[r]? with
  | some s => h.set r (alloc s tc)
  | none => h

/-- Embeds the inner loop of `compare_estimator_variances` (source lines
1107-1111): for each target cost, deepcopy the estimator, allocate on the
copy, and collect the copy. -/
def run_est {σ : Type} [Inhabited σ] (alloc : σ → ℚ → σ) (r : ℕ) :
    List ℚ → List σ → List ℕ × List σ
  | [], h => ([], h)
  | tc :: rest, h =>
    let rc := (copy_one h r).1
    let h1 := (copy_one h r).2
    let h2 := allocate_at alloc h1 rc tc
    let out := run_est alloc r rest h2
    (rc :: out.1, out.2)

/-- Embeds `compare_estimator_variances` (source lines 1087-1113): the
outer loop over the caller's estimators, returning the per-estimator
lists of optimized copies. -/
def compare_estimator_variances {σ : Type} [Inhabited σ]
    (alloc : σ → ℚ → σ) (target_costs : List ℚ) :
    List ℕ → List σ → List (List ℕ) × List σ
  | [], h => ([], h)
  | r :: rs, h =>
    let out1 := run_est alloc r target_costs h
    let out2 := compare_estimator_variances alloc target_costs rs out1.2
    (out1.1 :: out2.1, out2.2)

lemma set_append_length {σ : Type} (l : List σ) (x v : σ) :
    (l ++ [x]).set l.length v = l ++ [v] := by
  induction l with
  | nil => simp
  | cons a l ih => simp [List.set, ih]

lemma getElem?_append_lt {σ : Type} (l l' : List σ) (i : ℕ)
    (h : i < l.length) : (l ++ l')[i]? = l[i]? := by
  rw [List.getElem?_append, if_pos h]

lemma getElem?_append_length {σ : Type} (l : List σ) (x : σ) :
    (l ++ [x])[l.length]? = some x := by
  rw [List.getElem?_append, if_neg (lt_irrefl _)]
  simp

lemma run_est_cons {σ : Type} [Inhabited σ] (alloc : σ → ℚ → σ) (r : ℕ)
    (tc : ℚ) (rest : List ℚ) (h : List σ) :
    run_est alloc r (tc :: rest) h =
      (h.length :: (run_est alloc r rest
          (h ++ [alloc (heap_get h r) tc])).1,
        (run_est alloc r rest (h ++ [alloc (heap_get h r) tc])).2) := by
  have hset : allocate_at alloc (h ++ [heap_get h r]) h.length tc =
      h ++ [alloc (heap_get h r) tc] := by
    rw [allocate_at, getElem?_append_length]
    exact set_append_length h _ _
  rw [run_est]
  simp only [copy_one, hset]

lemma run_est_heap_ext {σ : Type} [Inhabited σ] (alloc : σ → ℚ → σ)
    (r : ℕ) : ∀ (tcs : List ℚ) (h : List σ),
    ∃ ext, (run_est alloc r tcs h).2 = h ++ ext := by
  intro tcs
  induction tcs with
  | nil => intro h; exact ⟨[], by simp [run_est]⟩
  | cons tc rest ih =>
    intro h
    rw [run_est_cons]
    obtain ⟨ext, hext⟩ := ih (h ++ [alloc (heap_get h r) tc])
    exact ⟨[alloc (heap_get h r) tc] ++ ext, by
      simp only [hext, List.append_assoc]⟩

lemma run_est_get_lt {σ : Type} [Inhabited σ] (alloc : σ → ℚ → σ)
    (r : ℕ) (tcs : List ℚ) (h : List σ) (i : ℕ) (hi : i < h.length) :
    ((run_est alloc r tcs h).2)[i]? = h[i]? := by
  obtain ⟨ext, hext⟩ := run_est_heap_ext alloc r tcs h
  rw [hext, getElem?_append_lt _ _ _ hi]

lemma run_est_length_le {σ : Type} [Inhabited σ] (alloc : σ → ℚ → σ)
    (r : ℕ) (tcs : List ℚ) (h : List σ) :
    h.length ≤ (run_est alloc r tcs h).2.length := by
  obtain ⟨ext, hext⟩ := run_est_heap_ext alloc r tcs h
  simp [hext]

lemma run_est_refs {σ : Type} [Inhabited σ] (alloc : σ → ℚ → σ)
    (r : ℕ) : ∀ (tcs : List ℚ) (h : List σ), r < h.length →
    ((run_est alloc r tcs h).1.map
        (fun rc => ((run_est alloc r tcs h).2)[rc]?) =
      tcs.map (fun tc => some (alloc (heap_get h r) tc))) ∧
    (∀ rc ∈ (run_est alloc r tcs h).1,
      rc < (run_est alloc r tcs h).2.length) := by
  intro tcs
  induction tcs with
  | nil =>
    intro h _
    constructor
    · simp [run_est]
    · intro rc hrc
      simp [run_est] at hrc
  | cons tc rest ih =>
    intro h hr
    rw [run_est_cons]
    have hlen2 : h.length < (h ++ [alloc (heap_get h r) tc]).length := by
      simp
    have hr2 : r < (h ++ [alloc (heap_get h r) tc]).length :=
      lt_of_lt_of_le hr (by simp)
    have hsame : heap_get (h ++ [alloc (heap_get h r) tc]) r =
        heap_get h r := by
      rw [heap_get, heap_get, getElem?_append_lt _ _ _ hr]
    have hIH := ih (h ++ [alloc (heap_get h r) tc]) hr2
    constructor
    · simp only [List.map_cons]
      rw [run_est_get_lt alloc r rest _ h.length hlen2,
        getElem?_append_length, hIH.1, hsame]
    · intro rc hrc
      simp only [List.mem_cons] at hrc
      rcases hrc with hrc | hrc
      · subst hrc
        exact lt_of_lt_of_le hlen2 (run_est_length_le alloc r rest _)
      · exact hIH.2 rc hrc

lemma compare_get_lt {σ : Type} [Inhabited σ] (alloc : σ → ℚ → σ)
    (tcs : List ℚ) : ∀ (rs : List ℕ) (h : List σ) (i : ℕ),
    i < h.length →
    ((compare_estimator_variances alloc tcs rs h).2)[i]? = h[i]? := by
  intro rs
  induction rs with
  | nil => intro h i _; simp [compare_estimator_variances]
  | cons r rs ih =>
    intro h i hi
    rw [compare_estimator_variances]
    have hle := run_est_length_le alloc r tcs h
    rw [ih (run_est alloc r tcs h).2 i (lt_of_lt_of_le hi hle)]
    exact run_est_get_lt alloc r tcs h i hi

lemma compare_length_le {σ : Type} [Inhabited σ] (alloc : σ → ℚ → σ)
    (tcs : List ℚ) : ∀ (rs : List ℕ) (h : List σ),
    h.length ≤ (compare_estimator_variances alloc tcs rs h).2.length := by
  intro rs
  induction rs with
  | nil => intro h; simp [compare_estimator_variances]
  | cons r rs ih =>
    intro h
    rw [compare_estimator_variances]
    exact le_trans (run_est_length_le alloc r tcs h)
      (ih (run_est alloc r tcs h).2)

/-- C10: `compare_estimator_variances` never mutates the estimators the
caller passed in — after the call every original reference still holds
its prior state — and each returned copy's state is exactly
`allocate_samples` applied to its source estimator's original state at
that copy's own target cost. -/
theorem c10_compare_estimator_variances_frame {σ : Type} [Inhabited σ]
    (alloc : σ → ℚ → σ) (tcs : List ℚ) (ests : List ℕ) (h : List σ)
    (hr : ∀ r ∈ ests, r < h.length) :
    (∀ i, i < h.length →
      ((compare_estimator_variances alloc tcs ests h).2)[i]? = h[i]?) ∧
    (∀ p ∈ ests.zip (compare_estimator_variances alloc tcs ests h).1,
      p.2.map
          (fun rc =>
            ((compare_estimator_variances alloc tcs ests h).2)[rc]?) =
        tcs.map (fun tc => some (alloc (heap_get h p.1) tc))) := by
  constructor
  · intro i hi
    exact compare_get_lt alloc tcs ests h i hi
  · induction ests generalizing h with
    | nil => intro p hp; simp [compare_estimator_variances] at hp
    | cons r rs ih =>
      intro p hp
      have hrh : r < h.length := hr r (by simp)
      rw [compare_estimator_variances] at hp ⊢
      simp only [List.zip_cons_cons, List.mem_cons] at hp
      rcases hp with hp | hp
      · subst hp
        have hrefs := run_est_refs alloc r tcs h hrh
        have hmap : (run_est alloc r tcs h).1.map
            (fun rc => ((compare_estimator_variances alloc tcs rs
              (run_est alloc r tcs h).2).2)[rc]?) =
            (run_est alloc r tcs h).1.map
              (fun rc => ((run_est alloc r tcs h).2)[rc]?) := by
          apply List.map_congr_left
          intro rc hrc
          exact compare_get_lt alloc tcs rs (run_est alloc r tcs h).2 rc
            (hrefs.2 rc hrc)
        simp only [hmap, hrefs.1]
      · have hr' : ∀ q ∈ rs, q < (run_est alloc r tcs h).2.length :=
          fun q hq => lt_of_lt_of_le (hr q (by simp [hq]))
            (run_est_length_le alloc r tcs h)
        have hIH := ih (run_est alloc r tcs h).2 hr' p hp
        rw [hIH]
        have hsame : heap_get (run_est alloc r tcs h).2 p.1 =
            heap_get h p.1 := by
          have hp1 : p.1 ∈ rs := List.of_mem_zip hp |>.1
          rw [heap_get, heap_get,
            run_est_get_lt alloc r tcs h p.1 (hr p.1 (by simp [hp1]))]
        rw [hsame]

/-- C10 witness: two estimators (states `10` and `20`) and two target
costs; the originals keep their states and each copy holds
`alloc` of its source's original state at its own cost. -/
theorem c10_compare_estimator_variances_frame_witness :
    (∀ i, i < ([10, 20] : List ℚ).length →
      ((compare_estimator_variances (fun s tc => s + tc) [1, 2] [0, 1]
        [10, 20]).2)[i]? = ([10, 20] : List ℚ)[i]?) ∧
    (∀ p ∈ ([0, 1] : List ℕ).zip
        (compare_estimator_variances (fun s tc => s + tc) [1, 2] [0, 1]
          [10, 20]).1,
      p.2.map
          (fun rc =>
            ((compare_estimator_variances (fun s tc => s + tc) [1, 2]
              [0, 1] [10, 20]).2)[rc]?) =
        ([1, 2] : List ℚ).map
          (fun tc => some ((heap_get [10, 20] p.1) + tc))) :=
  c10_compare_estimator_variances_frame (fun s tc => s + tc) [1, 2]
    [0, 1] [10, 20] (by decide)
